import Mathlib

/-!
# Verification of the fiss_planner local planner

A shallow embedding of the planning-and-tracking engine of the
`frenet_optimal_planner` node (`fop` namespace in the C++ sources).  The
repository ships only the node's header (`frenet_optimal_planner_node.h`),
which declares the orchestrator state and the helper functions
(`selectLane`, `concatPath`, `getSamplingWidthFromTargetLane`,
`calculateControlOutput`, `publishEmptyTrajsAndStop`, ...); the function
bodies are not part of the sources.  Every operation below is therefore
modelled from the specification's description of the corresponding
component, with machine reals replaced by exact rationals.
-/

namespace fop

/-- A 2-D point (metres). -/
structure Point where
  x : ℚ
  y : ℚ
deriving DecidableEq

/-- Dot product of two planar vectors. -/
def dot (u v : Point) : ℚ := u.x * v.x + u.y * v.y

/-- Planar cross product (z component); positive when `v` points to the left
of `u`. -/
def cross (u v : Point) : ℚ := u.x * v.y - u.y * v.x

/-- Vector difference `u - v`. -/
def sub (u v : Point) : Point := ⟨u.x - v.x, u.y - v.y⟩

/-- Squared Euclidean distance. -/
def dist2 (a b : Point) : ℚ := (b.x - a.x) ^ 2 + (b.y - a.y) ^ 2

/-- One waypoint of the committed output path: position, arc length, unit
tangent direction and target speed. -/
structure Waypoint where
  pos : Point
  s : ℚ
  dir : Point
  speed : ℚ
deriving DecidableEq

/-! ## Sampling-width computation (§4.3 of the spec) -/

/-- Modelled from the spec: the body of
`FrenetOptimalPlannerNode::getSamplingWidthFromTargetLane` is absent from the
sources (only declared in the header).  Per §4.3, the sampling width for a
given target lane, vehicle width and current/left/right lane widths is
published as a vector `[leftBoundary, rightBoundary]` in metres, each
boundary narrowed by the vehicle half-width plus margin and clipped to be
non-negative and no smaller than the vehicle's half-width plus margin.
Lane id 1 denotes a change into the left lane, 2 into the right lane. -/
def getSamplingWidthFromTargetLane (lane_id : Int) (vehicle_width current_lane_width left_lane_width right_lane_width margin : ℚ) : List ℚ :=
  [max (max ((if lane_id = 1 then current_lane_width / 2 + left_lane_width else current_lane_width / 2) - (vehicle_width / 2 + margin)) (vehicle_width / 2 + margin)) 0,
   max (max ((if lane_id = 2 then current_lane_width / 2 + right_lane_width else current_lane_width / 2) - (vehicle_width / 2 + margin)) (vehicle_width / 2 + margin)) 0]

/-! ## Lane-level arbitration (§4.5 of the spec) -/

/-- A candidate trajectory as seen by the lane selector: the per-lane-option
best path with its lane id, scalar cost and feasibility flag. -/
structure FrenetPath where
  lane_id : Int
  cost : ℚ
  feasible : Bool
  traj : List Waypoint
deriving DecidableEq

/-- Minimum-cost element of a list of candidates (`none` on the empty list,
first element wins ties). -/
def minCostPath : List FrenetPath → Option FrenetPath
  | [] => none
  | p :: ps => some (ps.foldl (fun b q => if q.cost < b.cost then q else b) p)

/-- Modelled from the spec: the body of
`FrenetOptimalPlannerNode::selectLane` is absent from the sources (only
declared in the header).  Per §4.5, prefer the lane option matching the
target lane id if it produced a feasible result; otherwise fall back to the
option matching the current lane id; otherwise pick the globally
minimum-cost feasible result; if no option is feasible, signal "no
trajectory" (`none`). -/
def selectLane (best_path_list : List FrenetPath) (current_lane target_lane : Int) : Option FrenetPath :=
  let tgt := best_path_list.filter (fun p => p.feasible && p.lane_id == target_lane)
  let cur := best_path_list.filter (fun p => p.feasible && p.lane_id == current_lane)
  let feas := best_path_list.filter (fun p => p.feasible)
  match minCostPath tgt with
  | some p => some p
  | none =>
    match minCostPath cur with
    | some p => some p
    | none => minCostPath feas

/-! ## Feasibility checking (§4.4 of the spec) -/

/-- One sampled point along a candidate trajectory as the evaluator sees it:
Cartesian position plus the speed, acceleration and curvature at that time
step. -/
structure TrajPoint where
  pos : Point
  speed : ℚ
  accel : ℚ
  curvature : ℚ
deriving DecidableEq

/-- A perceived obstacle: position and circular footprint radius. -/
structure Obstacle where
  pos : Point
  radius : ℚ
deriving DecidableEq

/-- Configured kinematic/dynamic limits (§6 configuration surface). -/
structure Limits where
  max_speed : ℚ
  max_accel : ℚ
  max_curvature : ℚ
deriving DecidableEq

/-- Modelled from the spec: the feasibility check of the Feasibility & Cost
Evaluator (§4.4); the planner implementation is absent from the sources.  At
one sampled time step: speed, |acceleration| and |curvature| each within the
configured bounds, and the position clears every obstacle's inflated
footprint by the safety margin (squared-distance form of
`dist ≥ radius + margin`). -/
def pointOk (lim : Limits) (margin : ℚ) (obstacles : List Obstacle) (p : TrajPoint) : Bool :=
  decide (p.speed ≤ lim.max_speed) && decide (|p.accel| ≤ lim.max_accel) &&
  decide (|p.curvature| ≤ lim.max_curvature) &&
  obstacles.all (fun ob => decide ((ob.radius + margin) ^ 2 ≤ dist2 ob.pos p.pos))

/-- Modelled from the spec (§4.4): a candidate is feasible when every sampled
time step passes `pointOk`; any violation marks the candidate infeasible. -/
def checkFeasible (lim : Limits) (margin : ℚ) (obstacles : List Obstacle) (traj : List TrajPoint) : Bool :=
  traj.all (pointOk lim margin obstacles)

/-- Number of candidates the evaluator marks feasible. -/
def countFeasible (lim : Limits) (margin : ℚ) (obstacles : List Obstacle) (cands : List (List TrajPoint)) : ℕ :=
  cands.countP (checkFeasible lim margin obstacles)

/-! ## Tracking controller (§4.7 of the spec) -/

/-- The vehicle state used by the frame converter and the controller:
position, unit heading vector `(cos yaw, sin yaw)` and speed. -/
structure VehicleState where
  pos : Point
  dir : Point
  v : ℚ
deriving DecidableEq

/-- Nearest waypoint of a list to a position (`none` on the empty list, first
wins ties). -/
def nearestWp (pos : Point) : List Waypoint → Option Waypoint
  | [] => none
  | w :: ws => some (ws.foldl (fun b q => if dist2 pos q.pos < dist2 pos b.pos then q else b) w)

/-- Modelled from the spec: the body of
`FrenetOptimalPlannerNode::calculateControlOutput` is absent from the sources
(only declared in the header).  Per §4.7, the command computation fails
(returns "no valid target", here `none`) when the path is empty or the
closest waypoint cannot be found within the maximum lookahead distance of
the front-axle state; otherwise it returns an acceleration (proportional
feedback toward the waypoint's target speed) and a steering angle (heading
error plus cross-track term with a speed floor; the outer arctangent of the
cross-track law, a transcendental map irrelevant to the success contract, is
omitted). -/
def calculateControlOutput (path : List Waypoint) (frontaxle : VehicleState) (max_lookahead speed_floor k_gain kp : ℚ) : Option (ℚ × ℚ) :=
  match nearestWp frontaxle.pos (path.filter (fun wp => dist2 frontaxle.pos wp.pos ≤ max_lookahead ^ 2)) with
  | none => none
  | some wp =>
    some (kp * (wp.speed - frontaxle.v),
          cross frontaxle.dir wp.dir +
            k_gain * cross wp.dir (sub frontaxle.pos wp.pos) / max frontaxle.v speed_floor)

/-! ## Trajectory sampling (§4.3 of the spec) -/

/-- The vehicle's road-relative state used as the sampling origin:
longitudinal position `s` with first/second derivatives, lateral offset `d`
with first/second derivatives (field names follow `fop::FrenetState`). -/
structure FrenetState where
  s : ℚ
  s_d : ℚ
  s_dd : ℚ
  d : ℚ
  d_d : ℚ
  d_dd : ℚ
deriving DecidableEq

/-- A degree-5 polynomial in time, by its coefficients. -/
structure Quintic where
  c0 : ℚ
  c1 : ℚ
  c2 : ℚ
  c3 : ℚ
  c4 : ℚ
  c5 : ℚ
deriving DecidableEq

/-- Value of a quintic at time `t`. -/
def Quintic.eval (p : Quintic) (t : ℚ) : ℚ :=
  p.c0 + p.c1 * t + p.c2 * t ^ 2 + p.c3 * t ^ 3 + p.c4 * t ^ 4 + p.c5 * t ^ 5

/-- First derivative of a quintic at time `t`. -/
def Quintic.evalD1 (p : Quintic) (t : ℚ) : ℚ :=
  p.c1 + 2 * p.c2 * t + 3 * p.c3 * t ^ 2 + 4 * p.c4 * t ^ 3 + 5 * p.c5 * t ^ 4

/-- Second derivative of a quintic at time `t`. -/
def Quintic.evalD2 (p : Quintic) (t : ℚ) : ℚ :=
  2 * p.c2 + 6 * p.c3 * t + 12 * p.c4 * t ^ 2 + 20 * p.c5 * t ^ 3

/-- A degree-4 polynomial in time, by its coefficients. -/
structure Quartic where
  c0 : ℚ
  c1 : ℚ
  c2 : ℚ
  c3 : ℚ
  c4 : ℚ
deriving DecidableEq

/-- Value of a quartic at time `t`. -/
def Quartic.eval (p : Quartic) (t : ℚ) : ℚ :=
  p.c0 + p.c1 * t + p.c2 * t ^ 2 + p.c3 * t ^ 3 + p.c4 * t ^ 4

/-- First derivative of a quartic at time `t`. -/
def Quartic.evalD1 (p : Quartic) (t : ℚ) : ℚ :=
  p.c1 + 2 * p.c2 * t + 3 * p.c3 * t ^ 2 + 4 * p.c4 * t ^ 3

/-- Second derivative of a quartic at time `t`. -/
def Quartic.evalD2 (p : Quartic) (t : ℚ) : ℚ :=
  2 * p.c2 + 6 * p.c3 * t + 12 * p.c4 * t ^ 2

/-- Modelled from the spec (§4.3): the quintic boundary-value solver of the
lateral motion (the planner implementation is absent from the sources).
Closed-form coefficients of the unique quintic with position/velocity/
acceleration `x0, v0, a0` at `t = 0` and `xT, vT, aT` at `t = T`. -/
def quinticSolve (x0 v0 a0 xT vT aT T : ℚ) : Quintic :=
  { c0 := x0
    c1 := v0
    c2 := a0 / 2
    c3 := 10 * (xT - x0 - v0 * T - a0 * T ^ 2 / 2) / T ^ 3 -
            4 * (vT - v0 - a0 * T) / T ^ 2 + (aT - a0) / (2 * T)
    c4 := -15 * (xT - x0 - v0 * T - a0 * T ^ 2 / 2) / T ^ 4 +
            7 * (vT - v0 - a0 * T) / T ^ 3 - (aT - a0) / T ^ 2
    c5 := 6 * (xT - x0 - v0 * T - a0 * T ^ 2 / 2) / T ^ 5 -
            3 * (vT - v0 - a0 * T) / T ^ 4 + (aT - a0) / (2 * T ^ 3) }

/-- Modelled from the spec (§4.3): the quartic boundary-value solver of the
longitudinal motion (the planner implementation is absent from the sources).
Closed-form coefficients of the unique quartic with start conditions
`x0, v0, a0` at `t = 0` and end velocity `vT`, end acceleration `aT` at
`t = T` (end position free). -/
def quarticSolve (x0 v0 a0 vT aT T : ℚ) : Quartic :=
  { c0 := x0
    c1 := v0
    c2 := a0 / 2
    c3 := (vT - v0 - a0 * T) / T ^ 2 - (aT - a0) / (3 * T)
    c4 := (aT - a0) / (4 * T ^ 2) - (vT - v0 - a0 * T) / (2 * T ^ 3) }

/-- One sampled candidate: the pair of polynomials together with the sampled
end conditions that generated it. -/
structure Candidate where
  lat : Quintic
  lon : Quartic
  d_target : ℚ
  v_target : ℚ
  horizon : ℚ
deriving DecidableEq

/-- Modelled from the spec: the sampling step of
`FrenetOptimalTrajectoryPlanner` (§4.3); the planner implementation is
absent from the sources.  One candidate per combination of lateral target
offset, target speed and time horizon: the lateral motion is the quintic
with end position `d`, end velocity and acceleration `0`; the longitudinal
motion is the quartic with end velocity the target speed and end
acceleration `0`. -/
def sampleCandidates (start : FrenetState) (lat_options speed_options horizon_options : List ℚ) : List Candidate :=
  lat_options.bind fun d =>
    speed_options.bind fun v =>
      horizon_options.map fun T =>
        { lat := quinticSolve start.d start.d_d start.d_dd d 0 0 T
          lon := quarticSolve start.s start.s_d start.s_dd v 0 T
          d_target := d
          v_target := v
          horizon := T }

/-! ## Path continuity (§4.6 of the spec) -/

/-- Number of equal pieces a too-long gap is split into: the least `k ≥ 1`
with `q ≤ k ^ 2`, where `q` is the squared gap over the squared maximum
separation. -/
def numPieces (q : ℚ) : ℕ := Nat.sqrt (⌈q⌉.toNat - 1) + 1

/-- Linear interpolation between two waypoints at fraction `i / k`
(direction and target speed taken from the destination waypoint). -/
def lerpWp (a b : Waypoint) (i k : ℕ) : Waypoint :=
  { pos := ⟨a.pos.x + (b.pos.x - a.pos.x) * i / k, a.pos.y + (b.pos.y - a.pos.y) * i / k⟩
    s := a.s + (b.s - a.s) * i / k
    dir := b.dir
    speed := b.speed }

/-- The `k` interpolated waypoints at fractions `1/k, ..., k/k` between two
waypoints (the last is the destination itself). -/
def subdiv (a b : Waypoint) (k : ℕ) : List Waypoint :=
  (List.range k).map fun i => lerpWp a b (i + 1) k

/-- Spacing constraint of the Path Continuity Manager (§4.6): consecutive
waypoints between the minimum and maximum separation, in squared form. -/
def sepOk (minS maxS : ℚ) (a b : Waypoint) : Prop :=
  minS ^ 2 ≤ dist2 a.pos b.pos ∧ dist2 a.pos b.pos ≤ maxS ^ 2

/-- Modelled from the spec (§4.6): enforce the spacing constraint while
appending candidate waypoints after `last`: a waypoint closer than the
minimum separation to the last retained one is merged (dropped); a gap wider
than the maximum separation is bridged by evenly interpolated waypoints;
otherwise the waypoint is appended as is. -/
def spaceOut (minS maxS : ℚ) : Waypoint → List Waypoint → List Waypoint
  | _, [] => []
  | last, p :: ps =>
    if dist2 last.pos p.pos < minS ^ 2 then spaceOut minS maxS last ps
    else if dist2 last.pos p.pos ≤ maxS ^ 2 then p :: spaceOut minS maxS p ps
    else subdiv last p (numPieces (dist2 last.pos p.pos / maxS ^ 2)) ++ spaceOut minS maxS p ps

/-- Modelled from the spec: the untruncated result of
`FrenetOptimalPlannerNode::concatPath` (§4.6), whose body is absent from the
sources (only declared in the header).  Appends waypoints of the newly
selected trajectory whose arc length exceeds the existing path's last
retained point, enforcing the spacing constraint via `spaceOut`. -/
def concatFull (curr_trajectory next_traj : List Waypoint) (wp_max_seperation wp_min_seperation : ℚ) : List Waypoint :=
  match curr_trajectory.getLast? with
  | none =>
    match next_traj with
    | [] => []
    | p :: ps => p :: spaceOut wp_min_seperation wp_max_seperation p ps
  | some last =>
    curr_trajectory ++
      spaceOut wp_min_seperation wp_max_seperation last
        (next_traj.filter fun wp => decide (last.s < wp.s))

/-- Modelled from the spec (§4.6): `concatPath` is the spacing-enforced
concatenation truncated to at most `traj_max_size` waypoints, oldest
dropped first. -/
def concatPath (curr_trajectory next_traj : List Waypoint) (traj_max_size traj_min_size : ℕ) (wp_max_seperation wp_min_seperation : ℚ) : List Waypoint :=
  (concatFull curr_trajectory next_traj wp_max_seperation wp_min_seperation).drop
    ((concatFull curr_trajectory next_traj wp_max_seperation wp_min_seperation).length - traj_max_size)

/-! ## Frame converter (§4.1 of the spec) -/

/-- One segment of the piecewise-linear, arc-length-parameterized reference
path produced by the Reference Path Builder: endpoints, the cumulative arc
length at its start and its stored length. -/
structure RefSegment where
  a : Point
  b : Point
  s0 : ℚ
  len : ℚ
deriving DecidableEq

/-- Segment well-formedness: positive stored length agreeing with the
Euclidean distance of the endpoints. -/
def RefSegment.wf (seg : RefSegment) : Prop :=
  0 < seg.len ∧ seg.len ^ 2 = dist2 seg.a seg.b

/-- Normalized projection parameter of a point onto a segment
(0 at `a`, 1 at `b`). -/
def projT (seg : RefSegment) (p : Point) : ℚ :=
  dot (sub p seg.a) (sub seg.b seg.a) / seg.len ^ 2

/-- Signed perpendicular distance of a point from a segment's support line:
positive to the left of the direction of travel, negative to the right
(the `LB + 0 - RB` convention of the header's diagram). -/
def projCross (seg : RefSegment) (p : Point) : ℚ :=
  cross (sub seg.b seg.a) (sub p seg.a) / seg.len

/-- Unit tangent direction of a segment. -/
def segDir (seg : RefSegment) : Point :=
  ⟨(seg.b.x - seg.a.x) / seg.len, (seg.b.y - seg.a.y) / seg.len⟩

/-- Whether a point projects onto a segment within the maximum lateral
search distance. -/
def onSeg (max_lat : ℚ) (seg : RefSegment) (p : Point) : Bool :=
  decide (0 ≤ projT seg p) && decide (projT seg p < 1) && decide (|projCross seg p| ≤ max_lat)

/-- Modelled from the spec: `toFrenet` of the Frame Converter (§4.1); the
planner implementation is absent from the sources.  Closest-point projection
of the Cartesian position onto the reference curve gives `s`; the signed
perpendicular distance gives `d`; speed is rotated into the path frame via
the path tangent (dot and cross products with the unit heading).  Returns
`none` ("path invalid") when the position projects onto no segment within
the maximum lateral search distance.  The model carries first-order state,
so the second derivatives are zero. -/
def toFrenet (state : VehicleState) (path : List RefSegment) (max_lat : ℚ) : Option FrenetState :=
  match path.find? (fun seg => onSeg max_lat seg state.pos) with
  | none => none
  | some seg =>
    some { s := seg.s0 + projT seg state.pos * seg.len
           s_d := state.v * dot (segDir seg) state.dir
           s_dd := 0
           d := projCross seg state.pos
           d_d := state.v * cross (segDir seg) state.dir
           d_dd := 0 }

/-- Modelled from the spec: `toCartesian` of the Frame Converter (§4.1); the
planner implementation is absent from the sources.  Locates the segment
containing arc length `s`, offsets the foot point by `d` along the left
normal, recovers speed as `sqrt (sd^2 + dd^2)` (`Rat.sqrt`, exact on
squares, stands in for the machine square root) and rotates the path
tangent by the velocity direction. -/
def toCartesian (fs : FrenetState) (path : List RefSegment) : Option VehicleState :=
  match path.find? (fun seg => decide (fs.s < seg.s0 + seg.len)) with
  | none => none
  | some seg =>
    if fs.s < seg.s0 then none
    else
      some { pos := ⟨seg.a.x + (fs.s - seg.s0) / seg.len * (seg.b.x - seg.a.x) - fs.d * (segDir seg).y,
                     seg.a.y + (fs.s - seg.s0) / seg.len * (seg.b.y - seg.a.y) + fs.d * (segDir seg).x⟩
             dir := if Rat.sqrt (fs.s_d ^ 2 + fs.d_d ^ 2) = 0 then segDir seg
                    else ⟨(segDir seg).x * (fs.s_d / Rat.sqrt (fs.s_d ^ 2 + fs.d_d ^ 2)) -
                            (segDir seg).y * (fs.d_d / Rat.sqrt (fs.s_d ^ 2 + fs.d_d ^ 2)),
                          (segDir seg).y * (fs.s_d / Rat.sqrt (fs.s_d ^ 2 + fs.d_d ^ 2)) +
                            (segDir seg).x * (fs.d_d / Rat.sqrt (fs.s_d ^ 2 + fs.d_d ^ 2))⟩
             v := Rat.sqrt (fs.s_d ^ 2 + fs.d_d ^ 2) }

/-- Reference-path well-formedness: every segment well-formed and the
cumulative arc length chained across consecutive segments (which makes arc
length strictly monotonic along the path). -/
def refPathWf (path : List RefSegment) : Prop :=
  (∀ seg ∈ path, seg.wf) ∧ path.Chain' (fun u v => u.s0 + u.len = v.s0)

/-- Modelled from the spec (§4.3): the discretized lateral sampling range
derived from the published `[leftBoundary, rightBoundary]` vector: `n + 1`
evenly spaced lateral target offsets from `-rightBoundary` (right of the
centerline) to `+leftBoundary` (left of the centerline). -/
def lateralOffsets (left_bound right_bound : ℚ) (n : ℕ) : List ℚ :=
  (List.range (n + 1)).map fun i : ℕ => -right_bound + (left_bound + right_bound) * (i : ℚ) / (n : ℚ)

/-! ## Planning cycle orchestration (§4.2, §4.7, §7 of the spec) -/

/-- The orchestrator's rolling state: the private fields of
`FrenetOptimalPlannerNode` (header lines 66-91), with the reference spline
modelled as its arc-length segment list. -/
structure OrchestratorState where
  regenerate_flag_ : Bool
  current_lane_id_ : Int
  target_lane_id_ : Int
  map_height_ : ℚ
  acceleration_ : ℚ
  steering_angle_ : ℚ
  current_state_ : VehicleState
  frontaxle_state_ : VehicleState
  start_state_ : FrenetState
  lane_ : List Point
  local_lane_ : List Point
  ref_spline_ : List RefSegment
  curr_trajectory_ : List Waypoint
  roi_boundaries_ : List ℚ
deriving DecidableEq

/-- The concat step of the orchestrator: replaces the retained output
trajectory with the concatenation result and touches nothing else. -/
def concatStep (st : OrchestratorState) (next_traj : List Waypoint) (traj_max_size traj_min_size : ℕ) (wp_max_seperation wp_min_seperation : ℚ) : OrchestratorState :=
  { st with curr_trajectory_ := concatPath st.curr_trajectory_ next_traj traj_max_size traj_min_size wp_max_seperation wp_min_seperation }

/-- The externally loaded configuration surface (§6). -/
structure Config where
  max_lat : ℚ
  lat_count : ℕ
  speed_options : List ℚ
  horizon_options : List ℚ
  lim : Limits
  margin : ℚ
  vehicle_width : ℚ
  current_lane_width : ℚ
  left_lane_width : ℚ
  right_lane_width : ℚ
  width_margin : ℚ
  traj_max_size : ℕ
  traj_min_size : ℕ
  wp_max_seperation : ℚ
  wp_min_seperation : ℚ
  max_lookahead : ℚ
  speed_floor : ℚ
  k_gain : ℚ
  kp : ℚ
  eval_steps : ℕ
  k_lat : ℚ
  k_speed : ℚ
  cruise_speed : ℚ
deriving DecidableEq

/-- The frozen per-cycle input snapshot (§5): raw lane waypoints and
obstacles. -/
structure CycleInput where
  lane : List Point
  obstacles : List Obstacle
deriving DecidableEq

/-- The published control command (`publishVehicleCmd(accel, angle)`):
longitudinal command and steering angle. -/
structure Command where
  speed : ℚ
  steering_angle : ℚ
deriving DecidableEq

/-- The fail-safe stop command of `publishEmptyTrajsAndStop`: zero target
speed, neutral steering. -/
def stopCmd : Command := ⟨0, 0⟩

/-- How a planning cycle ended: the three failure modes of §7
(`InputInvalid` on lane build, `InputInvalid` on projection,
`NoFeasibleTrajectory`) or success. -/
inductive PlanOutcome where
  | ok
  | invalid_path
  | projection_failed
  | no_trajectory
deriving DecidableEq

/-- Result of one planning cycle: the next orchestrator state, the published
command, whether the tracking controller was invoked, whether the process
halted (never, per §7), and the outcome tag. -/
structure CycleResult where
  state : OrchestratorState
  cmd : Command
  used_controller : Bool
  halted : Bool
  outcome : PlanOutcome

/-- Segments of the polyline through consecutive raw waypoints, with
cumulative arc length (segment lengths via `Rat.sqrt`, the stand-in for the
machine square root). -/
def buildSegs (s0 : ℚ) (p : Point) : List Point → List RefSegment
  | [] => []
  | q :: rest =>
    { a := p, b := q, s0 := s0, len := Rat.sqrt (dist2 p q) } ::
      buildSegs (s0 + Rat.sqrt (dist2 p q)) q rest

/-- Modelled from the spec: the Reference Path Builder (§4.2); the
implementation is absent from the sources.  Degenerate input (fewer than two
waypoints) is a reported error (`none`). -/
def buildRefPath (lane : List Point) : Option (List RefSegment) :=
  match lane with
  | p :: q :: rest => some (buildSegs 0 p (q :: rest))
  | _ => none

/-- Sampling instants `0, T/steps, ..., T` used by the evaluator. -/
def sampleTimes (T : ℚ) (steps : ℕ) : List ℚ :=
  (List.range (steps + 1)).map fun i : ℕ => T * (i : ℚ) / (steps : ℚ)

/-- Cartesian states of a candidate at the given instants; `none` when some
instant leaves the reference path (candidate unusable). -/
def candStates (ref : List RefSegment) (c : Candidate) : List ℚ → Option (List (ℚ × VehicleState))
  | [] => some []
  | t :: ts =>
    match toCartesian ⟨c.lon.eval t, c.lon.evalD1 t, c.lon.evalD2 t,
        c.lat.eval t, c.lat.evalD1 t, c.lat.evalD2 t⟩ ref with
    | none => none
    | some stt =>
      match candStates ref c ts with
      | none => none
      | some rest => some ((t, stt) :: rest)

/-- Evaluator view of one sampled instant: position, speed, longitudinal
acceleration and the lateral-acceleration surrogate for curvature (the exact
path curvature is transcendental and is modelled by the lateral second
derivative). -/
def trajPointOf (c : Candidate) (tp : ℚ × VehicleState) : TrajPoint :=
  ⟨tp.2.pos, tp.2.v, c.lon.evalD2 tp.1, c.lat.evalD2 tp.1⟩

/-- Output-path view of one sampled instant. -/
def waypointOf (c : Candidate) (tp : ℚ × VehicleState) : Waypoint :=
  ⟨tp.2.pos, c.lon.eval tp.1, tp.2.dir, tp.2.v⟩

/-- Modelled from the spec: the Feasibility & Cost Evaluator applied to one
candidate (§4.4); the implementation is absent from the sources.  Cost is
the configured weighted sum of lateral-offset and speed deviation; the
feasibility flag is `checkFeasible` over the sampled instants. -/
def evaluateCandidate (cfg : Config) (ref : List RefSegment) (obstacles : List Obstacle) (lane_id : Int) (c : Candidate) : FrenetPath :=
  match candStates ref c (sampleTimes c.horizon cfg.eval_steps) with
  | none => { lane_id := lane_id, cost := 0, feasible := false, traj := [] }
  | some pts =>
    { lane_id := lane_id
      cost := cfg.k_lat * c.d_target ^ 2 + cfg.k_speed * (c.v_target - cfg.cruise_speed) ^ 2
      feasible := checkFeasible cfg.lim cfg.margin obstacles (pts.map (trajPointOf c))
      traj := pts.map (waypointOf c) }

/-- Modelled from the spec: one pass of the Planning Cycle Orchestrator
(§2, §4.7, §7); the node implementation is absent from the sources.  Builds
the reference path, projects the vehicle, samples and evaluates candidates
for the target lane option, arbitrates, stitches the winner onto the
retained trajectory and runs the tracking controller.  Every failure mode
falls back to the stop command with the controller bypassed, marks the state
for regeneration and never halts. -/
def planCycle (st : OrchestratorState) (cfg : Config) (inp : CycleInput) : CycleResult :=
  match buildRefPath inp.lane with
  | none =>
    { state := { st with regenerate_flag_ := true }, cmd := stopCmd,
      used_controller := false, halted := false, outcome := PlanOutcome.invalid_path }
  | some ref =>
    match toFrenet st.current_state_ ref cfg.max_lat with
    | none =>
      { state := { st with regenerate_flag_ := true }, cmd := stopCmd,
        used_controller := false, halted := false, outcome := PlanOutcome.projection_failed }
    | some fs =>
      let roi := getSamplingWidthFromTargetLane st.target_lane_id_ cfg.vehicle_width
        cfg.current_lane_width cfg.left_lane_width cfg.right_lane_width cfg.width_margin
      let cands := sampleCandidates fs (lateralOffsets roi[0]! roi[1]! cfg.lat_count)
        cfg.speed_options cfg.horizon_options
      let paths := cands.map (evaluateCandidate cfg ref inp.obstacles st.target_lane_id_)
      match selectLane paths st.current_lane_id_ st.target_lane_id_ with
      | none =>
        { state := { st with regenerate_flag_ := true }, cmd := stopCmd,
          used_controller := false, halted := false, outcome := PlanOutcome.no_trajectory }
      | some best =>
        let newtraj := concatPath st.curr_trajectory_ best.traj cfg.traj_max_size
          cfg.traj_min_size cfg.wp_max_seperation cfg.wp_min_seperation
        match calculateControlOutput newtraj st.frontaxle_state_ cfg.max_lookahead
            cfg.speed_floor cfg.k_gain cfg.kp with
        | none =>
          { state := { st with
                       curr_trajectory_ := newtraj, ref_spline_ := ref,
                       start_state_ := fs, roi_boundaries_ := roi,
                       regenerate_flag_ := false },
            cmd := stopCmd, used_controller := true, halted := false,
            outcome := PlanOutcome.ok }
        | some cmdpair =>
          { state := { st with
                       curr_trajectory_ := newtraj, ref_spline_ := ref,
                       start_state_ := fs, roi_boundaries_ := roi,
                       regenerate_flag_ := false,
                       acceleration_ := cmdpair.1, steering_angle_ := cmdpair.2 },
            cmd := ⟨cmdpair.1, cmdpair.2⟩, used_controller := true, halted := false,
            outcome := PlanOutcome.ok }

/-- A concrete orchestrator state used to instantiate the cycle theorems. -/
def demoState : OrchestratorState :=
  ⟨false, 0, 0, 0, 0, 0, ⟨⟨0, 0⟩, ⟨1, 0⟩, 2⟩, ⟨⟨1, 0⟩, ⟨1, 0⟩, 2⟩, ⟨0, 2, 0, 0, 0, 0⟩,
    [], [], [], [], []⟩

/-- A concrete configuration used to instantiate the cycle theorems. -/
def demoConfig : Config :=
  ⟨2, 2, [10], [2], ⟨10, 3, 1⟩, 1 / 2, 1, 3, 3, 3, 1 / 2, 10, 2, 2, 1, 5, 1, 1, 1, 4, 1, 1, 10⟩

end fop

namespace fop

/-! ## Helper lemmas -/

theorem foldl_minCost_mem (ps : List FrenetPath) (p : FrenetPath) :
    ps.foldl (fun b q => if q.cost < b.cost then q else b) p ∈ p :: ps := by
  induction ps generalizing p with
  | nil => simp
  | cons q qs ih =>
    simp only [List.foldl_cons]
    by_cases h : q.cost < p.cost
    · simp only [if_pos h]
      have := ih q
      rcases List.mem_cons.mp this with h1 | h1
      · simp [h1]
      · simp [List.mem_cons, h1]
    · simp only [if_neg h]
      have := ih p
      rcases List.mem_cons.mp this with h1 | h1
      · simp [h1]
      · simp [List.mem_cons, h1]

theorem foldl_minCost_le (ps : List FrenetPath) (p : FrenetPath) :
    ∀ r ∈ p :: ps, (ps.foldl (fun b q => if q.cost < b.cost then q else b) p).cost ≤ r.cost := by
  induction ps generalizing p with
  | nil => intro r hr; simp at hr; simp [hr]
  | cons q qs ih =>
    intro r hr
    simp only [List.foldl_cons]
    by_cases h : q.cost < p.cost
    · simp only [if_pos h]
      rcases List.mem_cons.mp hr with h1 | h1
      · rw [h1]
        exact le_trans (ih q q (List.mem_cons_self q qs)) (le_of_lt h)
      · rcases List.mem_cons.mp h1 with h2 | h2
        · rw [h2]; exact ih q q (List.mem_cons_self q qs)
        · exact ih q r (List.mem_cons_of_mem q h2)
    · simp only [if_neg h]
      rcases List.mem_cons.mp hr with h1 | h1
      · rw [h1]; exact ih p p (List.mem_cons_self p qs)
      · rcases List.mem_cons.mp h1 with h2 | h2
        · rw [h2]
          exact le_trans (ih p p (List.mem_cons_self p qs)) (le_of_not_lt h)
        · exact ih p r (List.mem_cons_of_mem p h2)

theorem minCostPath_eq_none {l : List FrenetPath} : minCostPath l = none ↔ l = [] := by
  cases l <;> simp [minCostPath]

theorem minCostPath_mem {l : List FrenetPath} {p : FrenetPath}
    (h : minCostPath l = some p) : p ∈ l := by
  cases l with
  | nil => simp [minCostPath] at h
  | cons q qs =>
    simp only [minCostPath, Option.some.injEq] at h
    subst h
    exact foldl_minCost_mem qs q

theorem minCostPath_le {l : List FrenetPath} {p : FrenetPath}
    (h : minCostPath l = some p) : ∀ r ∈ l, p.cost ≤ r.cost := by
  cases l with
  | nil => simp
  | cons q qs =>
    simp only [minCostPath, Option.some.injEq] at h
    subst h
    exact foldl_minCost_le qs q

/-- C5: `getSamplingWidthFromTargetLane` returns a two-element vector
`[leftBoundary, rightBoundary]`, each element clipped to be non-negative and
no smaller than the vehicle's half-width plus the configured margin. -/
theorem getSamplingWidthFromTargetLane_spec (lane_id : Int) (w cw lw rw m : ℚ) :
    (getSamplingWidthFromTargetLane lane_id w cw lw rw m).length = 2 ∧
    ∀ b ∈ getSamplingWidthFromTargetLane lane_id w cw lw rw m, 0 ≤ b ∧ w / 2 + m ≤ b := by
  refine ⟨rfl, ?_⟩
  intro b hb
  simp only [getSamplingWidthFromTargetLane, List.mem_cons, List.mem_singleton,
    List.not_mem_nil, or_false] at hb
  rcases hb with h | h <;> subst h <;>
    exact ⟨le_max_right _ _, le_trans (le_max_right _ _) (le_max_left _ _)⟩

/-- C2: `selectLane` returns the minimum-cost feasible candidate of the lane
option matching the target lane id when that option produced a feasible
result; otherwise of the option matching the current lane id; otherwise the
globally minimum-cost feasible candidate; and returns `none` ("no
trajectory") when no option has a feasible candidate. -/
theorem selectLane_spec (l : List FrenetPath) (cur tgt : Int) :
    (l.filter (fun p => p.feasible && p.lane_id == tgt) ≠ [] →
      ∃ p, selectLane l cur tgt = some p ∧
        p ∈ l.filter (fun p => p.feasible && p.lane_id == tgt) ∧
        ∀ q ∈ l.filter (fun p => p.feasible && p.lane_id == tgt), p.cost ≤ q.cost) ∧
    (l.filter (fun p => p.feasible && p.lane_id == tgt) = [] →
     l.filter (fun p => p.feasible && p.lane_id == cur) ≠ [] →
      ∃ p, selectLane l cur tgt = some p ∧
        p ∈ l.filter (fun p => p.feasible && p.lane_id == cur) ∧
        ∀ q ∈ l.filter (fun p => p.feasible && p.lane_id == cur), p.cost ≤ q.cost) ∧
    (l.filter (fun p => p.feasible && p.lane_id == tgt) = [] →
     l.filter (fun p => p.feasible && p.lane_id == cur) = [] →
     l.filter (fun p => p.feasible) ≠ [] →
      ∃ p, selectLane l cur tgt = some p ∧
        p ∈ l.filter (fun p => p.feasible) ∧
        ∀ q ∈ l.filter (fun p => p.feasible), p.cost ≤ q.cost) ∧
    (l.filter (fun p => p.feasible) = [] → selectLane l cur tgt = none) := by
  refine ⟨?_, ?_, ?_, ?_⟩
  · intro h
    rcases Option.ne_none_iff_exists.mp (fun hn => h (minCostPath_eq_none.mp hn)) with ⟨p, hp⟩
    refine ⟨p, ?_, minCostPath_mem hp.symm, minCostPath_le hp.symm⟩
    simp only [selectLane, ← hp]
  · intro h1 h2
    rcases Option.ne_none_iff_exists.mp (fun hn => h2 (minCostPath_eq_none.mp hn)) with ⟨p, hp⟩
    refine ⟨p, ?_, minCostPath_mem hp.symm, minCostPath_le hp.symm⟩
    have ht : minCostPath (l.filter (fun p => p.feasible && p.lane_id == tgt)) = none :=
      minCostPath_eq_none.mpr h1
    simp only [selectLane, ht, ← hp]
  · intro h1 h2 h3
    rcases Option.ne_none_iff_exists.mp (fun hn => h3 (minCostPath_eq_none.mp hn)) with ⟨p, hp⟩
    refine ⟨p, ?_, minCostPath_mem hp.symm, minCostPath_le hp.symm⟩
    have ht : minCostPath (l.filter (fun p => p.feasible && p.lane_id == tgt)) = none :=
      minCostPath_eq_none.mpr h1
    have hc : minCostPath (l.filter (fun p => p.feasible && p.lane_id == cur)) = none :=
      minCostPath_eq_none.mpr h2
    simp only [selectLane, ht, hc, ← hp]
  · intro h
    have hsub : ∀ q : Int, l.filter (fun p => p.feasible && p.lane_id == q) = [] := by
      intro q
      rw [List.filter_eq_nil_iff] at h ⊢
      intro a ha
      simp only [Bool.and_eq_true, not_and] at *
      intro hfeas
      exact absurd hfeas (by simpa using h a ha)
    have ht := minCostPath_eq_none.mpr (hsub tgt)
    have hc := minCostPath_eq_none.mpr (hsub cur)
    have ha := minCostPath_eq_none.mpr h
    simp only [selectLane, ht, hc, ha]

/-- Concrete instantiation of `selectLane_spec`: with a feasible candidate on
the target lane, the selector returns the minimum-cost candidate of that
lane option. -/
theorem selectLane_spec_witness :
    ∃ p, selectLane [⟨1, 5, true, []⟩, ⟨2, 3, true, []⟩, ⟨2, 7, true, []⟩] 1 2 = some p ∧
      p ∈ ([⟨1, 5, true, []⟩, ⟨2, 3, true, []⟩, ⟨2, 7, true, []⟩] : List FrenetPath).filter
          (fun p => p.feasible && p.lane_id == 2) ∧
      ∀ q ∈ ([⟨1, 5, true, []⟩, ⟨2, 3, true, []⟩, ⟨2, 7, true, []⟩] : List FrenetPath).filter
          (fun p => p.feasible && p.lane_id == 2), p.cost ≤ q.cost :=
  (selectLane_spec [⟨1, 5, true, []⟩, ⟨2, 3, true, []⟩, ⟨2, 7, true, []⟩] 1 2).1 (by decide)

/-- C7: for a fixed candidate set and obstacle set, increasing the obstacle
inflation margin never increases the number of candidates marked feasible,
and decreasing the maximum-curvature limit never increases it. -/
theorem countFeasible_monotone (lim : Limits) (m1 m2 k1 k2 : ℚ) (obs : List Obstacle)
    (cands : List (List TrajPoint))
    (hm : m1 ≤ m2) (hr : ∀ ob ∈ obs, 0 ≤ ob.radius + m1) (hk : k1 ≤ k2) :
    countFeasible lim m2 obs cands ≤ countFeasible lim m1 obs cands ∧
    countFeasible { lim with max_curvature := k1 } m1 obs cands ≤
      countFeasible { lim with max_curvature := k2 } m1 obs cands := by
  constructor
  · apply List.countP_mono_left
    intro traj _ htraj
    simp only [checkFeasible, List.all_eq_true] at htraj ⊢
    intro p hp
    have hpt := htraj p hp
    simp only [pointOk, Bool.and_eq_true, decide_eq_true_eq, List.all_eq_true] at hpt ⊢
    refine ⟨hpt.1, ?_⟩
    intro ob hob
    have hclear := hpt.2 ob hob
    have hsq : (ob.radius + m1) ^ 2 ≤ (ob.radius + m2) ^ 2 :=
      pow_le_pow_left₀ (hr ob hob) (by linarith) 2
    exact le_trans hsq hclear
  · apply List.countP_mono_left
    intro traj _ htraj
    simp only [checkFeasible, List.all_eq_true] at htraj ⊢
    intro p hp
    have hpt := htraj p hp
    simp only [pointOk, Bool.and_eq_true, decide_eq_true_eq, List.all_eq_true] at hpt ⊢
    exact ⟨⟨⟨hpt.1.1.1, hpt.1.1.2⟩, le_trans hpt.1.2 hk⟩, hpt.2⟩

/-- Concrete instantiation of `countFeasible_monotone`: one obstacle of
radius 1 at the origin, one single-point candidate 3 m away, margins 0 and 1
and curvature limits 1/2 and 1. -/
theorem countFeasible_monotone_witness :
    countFeasible ⟨10, 3, 1⟩ 1 [⟨⟨0, 0⟩, 1⟩] [[⟨⟨3, 0⟩, 5, 1, 0⟩]] ≤
      countFeasible ⟨10, 3, 1⟩ 0 [⟨⟨0, 0⟩, 1⟩] [[⟨⟨3, 0⟩, 5, 1, 0⟩]] ∧
    countFeasible ⟨10, 3, 1 / 2⟩ 0 [⟨⟨0, 0⟩, 1⟩] [[⟨⟨3, 0⟩, 5, 1, 0⟩]] ≤
      countFeasible ⟨10, 3, 1⟩ 0 [⟨⟨0, 0⟩, 1⟩] [[⟨⟨3, 0⟩, 5, 1, 0⟩]] :=
  countFeasible_monotone ⟨10, 3, 1⟩ 0 1 (1 / 2) 1 [⟨⟨0, 0⟩, 1⟩] [[⟨⟨3, 0⟩, 5, 1, 0⟩]]
    (by norm_num) (by simp) (by norm_num)

theorem nearestWp_eq_none (pos : Point) (l : List Waypoint) :
    nearestWp pos l = none ↔ l = [] := by
  cases l <;> simp [nearestWp]

/-- C8: the tracking controller's command computation fails (returns
"no valid target", `none`) iff the committed path is empty or no waypoint
lies within the maximum lookahead distance of the front-axle state;
otherwise it returns an acceleration and a steering angle. -/
theorem calculateControlOutput_spec (path : List Waypoint) (st : VehicleState)
    (maxL floor k kp : ℚ) :
    (calculateControlOutput path st maxL floor k kp = none ↔
      (path = [] ∨ ∀ wp ∈ path, ¬ dist2 st.pos wp.pos ≤ maxL ^ 2)) ∧
    (¬ (path = [] ∨ ∀ wp ∈ path, ¬ dist2 st.pos wp.pos ≤ maxL ^ 2) →
      ∃ a d, calculateControlOutput path st maxL floor k kp = some (a, d)) := by
  have hfilter : ((path.filter fun wp => decide (dist2 st.pos wp.pos ≤ maxL ^ 2)) = []) ↔
      (path = [] ∨ ∀ wp ∈ path, ¬ dist2 st.pos wp.pos ≤ maxL ^ 2) := by
    rw [List.filter_eq_nil_iff]
    constructor
    · intro h
      right
      intro wp hwp
      simpa using h wp hwp
    · rintro (rfl | h) wp hwp
      · simp at hwp
      · simpa using h wp hwp
  have hmain : calculateControlOutput path st maxL floor k kp = none ↔
      (path = [] ∨ ∀ wp ∈ path, ¬ dist2 st.pos wp.pos ≤ maxL ^ 2) := by
    rw [← hfilter, ← nearestWp_eq_none st.pos]
    unfold calculateControlOutput
    cases nearestWp st.pos (path.filter fun wp => decide (dist2 st.pos wp.pos ≤ maxL ^ 2)) with
    | none => simp
    | some wp => simp
  refine ⟨hmain, ?_⟩
  intro hcond
  cases hres : calculateControlOutput path st maxL floor k kp with
  | none => exact absurd (hmain.mp hres) hcond
  | some pair =>
    cases pair with
    | mk a d => exact ⟨a, d, rfl⟩

/-- Concrete instantiation of `calculateControlOutput_spec`: a one-waypoint
path within lookahead range yields a command. -/
theorem calculateControlOutput_spec_witness :
    ∃ a d, calculateControlOutput [⟨⟨0, 0⟩, 0, ⟨1, 0⟩, 5⟩] ⟨⟨0, 1⟩, ⟨1, 0⟩, 3⟩ 2 1 1 1 =
      some (a, d) :=
  (calculateControlOutput_spec [⟨⟨0, 0⟩, 0, ⟨1, 0⟩, 5⟩] ⟨⟨0, 1⟩, ⟨1, 0⟩, 3⟩ 2 1 1 1).2
    (by simp [dist2])

theorem quinticSolve_boundary (x0 v0 a0 xT vT aT T : ℚ) (hT : T ≠ 0) :
    (quinticSolve x0 v0 a0 xT vT aT T).eval 0 = x0 ∧
    (quinticSolve x0 v0 a0 xT vT aT T).evalD1 0 = v0 ∧
    (quinticSolve x0 v0 a0 xT vT aT T).evalD2 0 = a0 ∧
    (quinticSolve x0 v0 a0 xT vT aT T).eval T = xT ∧
    (quinticSolve x0 v0 a0 xT vT aT T).evalD1 T = vT ∧
    (quinticSolve x0 v0 a0 xT vT aT T).evalD2 T = aT := by
  simp only [quinticSolve, Quintic.eval, Quintic.evalD1, Quintic.evalD2]
  refine ⟨by ring, by ring, by ring, ?_, ?_, ?_⟩ <;> field_simp <;> ring

theorem quarticSolve_boundary (x0 v0 a0 vT aT T : ℚ) (hT : T ≠ 0) :
    (quarticSolve x0 v0 a0 vT aT T).eval 0 = x0 ∧
    (quarticSolve x0 v0 a0 vT aT T).evalD1 0 = v0 ∧
    (quarticSolve x0 v0 a0 vT aT T).evalD2 0 = a0 ∧
    (quarticSolve x0 v0 a0 vT aT T).evalD1 T = vT ∧
    (quarticSolve x0 v0 a0 vT aT T).evalD2 T = aT := by
  simp only [quarticSolve, Quartic.eval, Quartic.evalD1, Quartic.evalD2]
  refine ⟨by ring, by ring, by ring, ?_, ?_⟩ <;> field_simp <;> ring

theorem length_bind_const {α β : Type} (l : List α) (f : α → List β) (k : ℕ)
    (h : ∀ a, (f a).length = k) : (l.bind f).length = l.length * k := by
  induction l with
  | nil => simp
  | cons a as ih => simp [ih, h, Nat.succ_mul, Nat.add_comm]

/-- C4: for every start `FrenetState` and sampling ranges, the sampler
produces exactly `|lat| * |speed| * |horizon|` candidates, and each
candidate's polynomials satisfy the specified boundary conditions: the start
position/velocity/acceleration at `t = 0`, and at `t = horizon` the sampled
end lateral offset with zero lateral velocity/acceleration and the sampled
target speed with zero longitudinal end acceleration. -/
theorem sampleCandidates_spec (start : FrenetState) (ls sp hz : List ℚ)
    (hT : ∀ T ∈ hz, 0 < T) :
    (sampleCandidates start ls sp hz).length = ls.length * sp.length * hz.length ∧
    ∀ c ∈ sampleCandidates start ls sp hz,
      c.lat.eval 0 = start.d ∧ c.lat.evalD1 0 = start.d_d ∧ c.lat.evalD2 0 = start.d_dd ∧
      c.lat.eval c.horizon = c.d_target ∧ c.lat.evalD1 c.horizon = 0 ∧
      c.lat.evalD2 c.horizon = 0 ∧
      c.lon.eval 0 = start.s ∧ c.lon.evalD1 0 = start.s_d ∧ c.lon.evalD2 0 = start.s_dd ∧
      c.lon.evalD1 c.horizon = c.v_target ∧ c.lon.evalD2 c.horizon = 0 ∧
      c.d_target ∈ ls ∧ c.v_target ∈ sp ∧ c.horizon ∈ hz := by
  constructor
  · simp only [sampleCandidates]
    rw [Nat.mul_assoc]
    apply length_bind_const
    intro d
    apply length_bind_const
    intro v
    simp
  · intro c hc
    simp only [sampleCandidates, List.mem_bind, List.mem_map] at hc
    obtain ⟨d, hd, v, hv, T, hTmem, hceq⟩ := hc
    have hTne : T ≠ 0 := ne_of_gt (hT T hTmem)
    obtain ⟨h1, h2, h3, h4, h5, h6⟩ :=
      quinticSolve_boundary start.d start.d_d start.d_dd d 0 0 T hTne
    obtain ⟨g1, g2, g3, g4, g5⟩ :=
      quarticSolve_boundary start.s start.s_d start.s_dd v 0 T hTne
    subst hceq
    exact ⟨h1, h2, h3, h4, h5, h6, g1, g2, g3, g4, g5, hd, hv, hTmem⟩

/-- Concrete instantiation of `sampleCandidates_spec`: a single-combination
sampling range produces exactly one candidate meeting its boundary
conditions. -/
theorem sampleCandidates_spec_witness :
    (sampleCandidates ⟨0, 10, 0, 1, 0, 0⟩ [0] [10] [2]).length = 1 * 1 * 1 ∧
    ∀ c ∈ sampleCandidates ⟨0, 10, 0, 1, 0, 0⟩ [0] [10] [2],
      c.lat.eval 0 = (⟨0, 10, 0, 1, 0, 0⟩ : FrenetState).d ∧
      c.lat.evalD1 0 = (⟨0, 10, 0, 1, 0, 0⟩ : FrenetState).d_d ∧
      c.lat.evalD2 0 = (⟨0, 10, 0, 1, 0, 0⟩ : FrenetState).d_dd ∧
      c.lat.eval c.horizon = c.d_target ∧ c.lat.evalD1 c.horizon = 0 ∧
      c.lat.evalD2 c.horizon = 0 ∧
      c.lon.eval 0 = (⟨0, 10, 0, 1, 0, 0⟩ : FrenetState).s ∧
      c.lon.evalD1 0 = (⟨0, 10, 0, 1, 0, 0⟩ : FrenetState).s_d ∧
      c.lon.evalD2 0 = (⟨0, 10, 0, 1, 0, 0⟩ : FrenetState).s_dd ∧
      c.lon.evalD1 c.horizon = c.v_target ∧ c.lon.evalD2 c.horizon = 0 ∧
      c.d_target ∈ [(0 : ℚ)] ∧ c.v_target ∈ [(10 : ℚ)] ∧ c.horizon ∈ [(2 : ℚ)] :=
  sampleCandidates_spec ⟨0, 10, 0, 1, 0, 0⟩ [0] [10] [2] (by norm_num)

theorem find?_decomp {α : Type} {p : α → Bool} {l : List α} {a : α}
    (h : l.find? p = some a) :
    ∃ pre post, l = pre ++ a :: post ∧ ∀ x ∈ pre, p x = false := by
  induction l with
  | nil => simp at h
  | cons b bs ih =>
    by_cases hb : p b
    · rw [List.find?_cons_of_pos bs hb, Option.some_inj] at h
      exact ⟨[], bs, by simp [h], by simp⟩
    · rw [List.find?_cons_of_neg bs hb] at h
      obtain ⟨pre, post, heq, hpre⟩ := ih h
      refine ⟨b :: pre, post, by rw [heq]; rfl, ?_⟩
      intro x hx
      rcases List.mem_cons.mp hx with h1 | h1
      · rw [h1]; exact Bool.eq_false_iff.mpr hb
      · exact hpre x h1

theorem pre_le_s0 (pre post : List RefSegment) (seg : RefSegment)
    (h : refPathWf (pre ++ seg :: post)) : ∀ x ∈ pre, x.s0 + x.len ≤ seg.s0 := by
  induction pre with
  | nil => simp
  | cons y pre' ih =>
    obtain ⟨hall, hchain⟩ := h
    rw [List.cons_append, List.chain'_cons'] at hchain
    have hih := ih ⟨fun sg hsg => hall sg (List.mem_cons_of_mem y hsg), hchain.2⟩
    intro x hx
    rcases List.mem_cons.mp hx with h1 | h1
    · subst h1
      cases pre' with
      | nil =>
        have := hchain.1 seg (by simp)
        simp at this
        rw [this]
      | cons z pre'' =>
        have hyz := hchain.1 z (by simp)
        have hz := hih z (List.mem_cons_self z pre'')
        have hzlen : 0 < z.len :=
          (hall z (by simp [List.mem_cons, List.mem_append])).1
        rw [hyz]
        linarith
    · exact hih x h1

theorem proj_recon_x (seg : RefSegment) (p : Point) (hlnz : seg.len ≠ 0)
    (hd2 : seg.len ^ 2 = dist2 seg.a seg.b) :
    seg.a.x + projT seg p * (seg.b.x - seg.a.x) - projCross seg p * (segDir seg).y = p.x := by
  have hL2 : seg.len ^ 2 ≠ 0 := pow_ne_zero 2 hlnz
  simp only [projT, projCross, segDir, dot, cross, sub, dist2] at *
  rw [div_mul_eq_mul_div, div_mul_div_comm, ← sq, add_sub_assoc, div_sub_div_same,
    ← eq_sub_iff_add_eq', div_eq_iff hL2]
  linear_combination (seg.a.x - p.x) * hd2

theorem proj_recon_y (seg : RefSegment) (p : Point) (hlnz : seg.len ≠ 0)
    (hd2 : seg.len ^ 2 = dist2 seg.a seg.b) :
    seg.a.y + projT seg p * (seg.b.y - seg.a.y) + projCross seg p * (segDir seg).x = p.y := by
  have hL2 : seg.len ^ 2 ≠ 0 := pow_ne_zero 2 hlnz
  simp only [projT, projCross, segDir, dot, cross, sub, dist2] at *
  rw [div_mul_eq_mul_div, div_mul_div_comm, ← sq, add_assoc, div_add_div_same,
    ← eq_sub_iff_add_eq', div_eq_iff hL2]
  linear_combination (seg.a.y - p.y) * hd2

theorem dir_recon_x (seg : RefSegment) (e : Point) (hlnz : seg.len ≠ 0)
    (hd2 : seg.len ^ 2 = dist2 seg.a seg.b) :
    (segDir seg).x * dot (segDir seg) e - (segDir seg).y * cross (segDir seg) e = e.x := by
  have hL2 : seg.len ^ 2 ≠ 0 := pow_ne_zero 2 hlnz
  simp only [segDir, dot, cross, dist2] at *
  field_simp
  linear_combination (-e.x) * hd2

theorem dir_recon_y (seg : RefSegment) (e : Point) (hlnz : seg.len ≠ 0)
    (hd2 : seg.len ^ 2 = dist2 seg.a seg.b) :
    (segDir seg).y * dot (segDir seg) e + (segDir seg).x * cross (segDir seg) e = e.y := by
  have hL2 : seg.len ^ 2 ≠ 0 := pow_ne_zero 2 hlnz
  simp only [segDir, dot, cross, dist2] at *
  field_simp
  linear_combination (-e.y) * hd2

set_option maxHeartbeats 1000000 in
/-- C6: for every vehicle state whose position projects onto some segment of
the reference path within the maximum lateral search distance, converting to
Frenet and back yields the original state (exactly, in the rational model);
when no segment accepts the position the converter returns an error
(`none`), it does not crash. -/
theorem frenet_roundtrip (st : VehicleState) (path : List RefSegment) (max_lat : ℚ)
    (hwf : refPathWf path) (hdir : st.dir.x ^ 2 + st.dir.y ^ 2 = 1) (hv : 0 < st.v) :
    (∀ fs, toFrenet st path max_lat = some fs → toCartesian fs path = some st) ∧
    ((∀ seg ∈ path, onSeg max_lat seg st.pos = false) → toFrenet st path max_lat = none) := by
  constructor
  · intro fs hfs
    unfold toFrenet at hfs
    cases hfind : path.find? (fun seg => onSeg max_lat seg st.pos) with
    | none => rw [hfind] at hfs; exact absurd hfs (by simp)
    | some seg =>
      rw [hfind] at hfs
      simp only [Option.some_inj] at hfs
      obtain ⟨pre, post, hsplit, hpre⟩ := find?_decomp hfind
      have hsegmem : seg ∈ path := List.mem_of_find?_eq_some hfind
      have hseg := List.find?_some hfind
      simp only [onSeg, Bool.and_eq_true, decide_eq_true_eq] at hseg
      obtain ⟨⟨hT0, hT1⟩, _⟩ := hseg
      obtain ⟨hlen, hd2⟩ := hwf.1 seg hsegmem
      have hlnz : seg.len ≠ 0 := ne_of_gt hlen
      have hpresle := pre_le_s0 pre post seg (hsplit ▸ hwf)
      -- field equations of fs
      have hs : fs.s = seg.s0 + projT seg st.pos * seg.len := by rw [← hfs]
      have hsd : fs.s_d = st.v * dot (segDir seg) st.dir := by rw [← hfs]
      have hd : fs.d = projCross seg st.pos := by rw [← hfs]
      have hdd : fs.d_d = st.v * cross (segDir seg) st.dir := by rw [← hfs]
      -- bounds on fs.s
      have hsl : seg.s0 ≤ fs.s := by
        rw [hs]
        have := mul_nonneg hT0 (le_of_lt hlen)
        linarith
      have hsu : fs.s < seg.s0 + seg.len := by
        rw [hs]
        have := mul_lt_mul_of_pos_right hT1 hlen
        linarith
      -- the cartesian lookup finds the same segment
      have hfind2 : path.find? (fun sg => decide (fs.s < sg.s0 + sg.len)) = some seg := by
        rw [hsplit, List.find?_append]
        have h1 : (pre.find? fun sg => decide (fs.s < sg.s0 + sg.len)) = none := by
          rw [List.find?_eq_none]
          intro x hx
          simp only [decide_eq_true_eq, not_lt]
          exact le_trans (hpresle x hx) hsl
        have h2 : ((seg :: post).find? fun sg => decide (fs.s < sg.s0 + sg.len)) = some seg :=
          List.find?_cons_of_pos post (by simpa using hsu)
        rw [h1, h2]
        rfl
      -- speed identity
      have hspeed : Rat.sqrt (fs.s_d ^ 2 + fs.d_d ^ 2) = st.v := by
        rw [hsd, hdd]
        have key : (st.v * dot (segDir seg) st.dir) ^ 2 +
            (st.v * cross (segDir seg) st.dir) ^ 2 = st.v * st.v := by
          simp only [segDir, dot, cross, dist2] at *
          field_simp
          linear_combination (st.v ^ 2 * ((seg.b.x - seg.a.x) ^ 2 + (seg.b.y - seg.a.y) ^ 2)) * hdir - st.v * st.v * hd2
        rw [key, Rat.sqrt_eq, abs_of_nonneg (le_of_lt hv)]
      unfold toCartesian
      rw [hfind2]
      dsimp only
      rw [if_neg (not_lt.mpr hsl)]
      rw [hspeed, if_neg (ne_of_gt hv)]
      have ht : (fs.s - seg.s0) / seg.len = projT seg st.pos := by
        rw [hs]
        field_simp
      have hposx : seg.a.x + (fs.s - seg.s0) / seg.len * (seg.b.x - seg.a.x) - fs.d * (segDir seg).y = st.pos.x := by
        rw [ht, hd]
        exact proj_recon_x seg st.pos hlnz hd2
      have hposy : seg.a.y + (fs.s - seg.s0) / seg.len * (seg.b.y - seg.a.y) + fs.d * (segDir seg).x = st.pos.y := by
        rw [ht, hd]
        exact proj_recon_y seg st.pos hlnz hd2
      have hva : fs.s_d / st.v = dot (segDir seg) st.dir := by
        rw [hsd, mul_div_cancel_left₀ _ (ne_of_gt hv)]
      have hvb : fs.d_d / st.v = cross (segDir seg) st.dir := by
        rw [hdd, mul_div_cancel_left₀ _ (ne_of_gt hv)]
      have hdirx : (segDir seg).x * (fs.s_d / st.v) - (segDir seg).y * (fs.d_d / st.v) = st.dir.x := by
        rw [hva, hvb]
        exact dir_recon_x seg st.dir hlnz hd2
      have hdiry : (segDir seg).y * (fs.s_d / st.v) + (segDir seg).x * (fs.d_d / st.v) = st.dir.y := by
        rw [hva, hvb]
        exact dir_recon_y seg st.dir hlnz hd2
      rw [Option.some_inj]
      obtain ⟨⟨px, py⟩, ⟨ex, ey⟩, v⟩ := st
      simp only at hposx hposy hdirx hdiry hspeed
      rw [VehicleState.mk.injEq, Point.mk.injEq, Point.mk.injEq]
      exact ⟨⟨hposx, hposy⟩, ⟨hdirx, hdiry⟩, rfl⟩
  · intro h
    unfold toFrenet
    rw [List.find?_eq_none.mpr (by intro x hx; simp [h x hx])]


theorem frenet_roundtrip_witness :
    toCartesian ⟨5/2, 2, 0, 1, 0, 0⟩ [⟨⟨0, 0⟩, ⟨3, 4⟩, 0, 5⟩] =
      some ⟨⟨7/10, 13/5⟩, ⟨3/5, 4/5⟩, 2⟩ :=
  (frenet_roundtrip ⟨⟨7/10, 13/5⟩, ⟨3/5, 4/5⟩, 2⟩ [⟨⟨0, 0⟩, ⟨3, 4⟩, 0, 5⟩] 2
      ⟨by intro seg hseg; simp at hseg; subst hseg; constructor <;> norm_num [dist2], by simp⟩
      (by norm_num) (by norm_num)).1 ⟨5/2, 2, 0, 1, 0, 0⟩
    (by simp [toFrenet, List.find?, onSeg, projT, projCross, segDir, dot, cross, sub]; norm_num)

theorem le_sq_numPieces (q : ℚ) (hq : 0 < q) : q ≤ ((numPieces q : ℕ) : ℚ) ^ 2 := by
  have h1 : q ≤ (⌈q⌉ : ℚ) := Int.le_ceil q
  have hc0 : 0 < ⌈q⌉ := Int.ceil_pos.mpr hq
  set n : ℕ := ⌈q⌉.toNat with hn
  have hcast : ((n : ℤ) : ℚ) = (⌈q⌉ : ℚ) := by
    rw [hn, Int.toNat_of_nonneg (le_of_lt hc0)]
  have hn1 : 1 ≤ n := by rw [hn]; omega
  have h2 : n ≤ (Nat.sqrt (n - 1) + 1) ^ 2 := by
    have := Nat.lt_succ_sqrt (n - 1)
    have heq : n - 1 + 1 = n := Nat.succ_pred_eq_of_pos hn1
    calc n = n - 1 + 1 := heq.symm
    _ ≤ (Nat.sqrt (n - 1)).succ * (Nat.sqrt (n - 1)).succ := by
        have := Nat.lt_succ_sqrt (n - 1)
        omega
    _ = (Nat.sqrt (n - 1) + 1) ^ 2 := by rw [Nat.succ_eq_add_one]; ring
  calc q ≤ (⌈q⌉ : ℚ) := h1
  _ = (n : ℚ) := by rw [← hcast]; norm_cast
  _ ≤ (((Nat.sqrt (n - 1) + 1) ^ 2 : ℕ) : ℚ) := by exact_mod_cast h2
  _ = ((numPieces q : ℕ) : ℚ) ^ 2 := by
      rw [numPieces]
      push_cast
      ring

theorem sq_pred_lt_numPieces (q : ℚ) (hq : 1 < q) : (((numPieces q : ℕ) : ℚ) - 1) ^ 2 < q := by
  have hc0 : 0 < ⌈q⌉ := Int.ceil_pos.mpr (by linarith)
  set n : ℕ := ⌈q⌉.toNat with hn
  have hcast : ((n : ℤ) : ℚ) = (⌈q⌉ : ℚ) := by
    rw [hn, Int.toNat_of_nonneg (le_of_lt hc0)]
  have hn2 : 2 ≤ n := by
    have h1 : (1 : ℤ) < ⌈q⌉ := by
      by_contra hcon
      push_neg at hcon
      have h2 : (⌈q⌉ : ℚ) ≤ 1 := by exact_mod_cast hcon
      have h3 := Int.le_ceil q
      linarith
    rw [hn]
    omega
  have hs : Nat.sqrt (n - 1) * Nat.sqrt (n - 1) ≤ n - 1 := Nat.sqrt_le (n - 1)
  have hceil : ((n : ℚ) - 1) < q := by
    have := Int.ceil_lt_add_one q
    have h2 : ((n : ℤ) : ℚ) < q + 1 := by rw [hcast]; exact this
    push_cast at h2
    linarith
  have hnum : ((numPieces q : ℕ) : ℚ) - 1 = ((Nat.sqrt (n - 1) : ℕ) : ℚ) := by
    rw [numPieces]
    push_cast
    ring
  rw [hnum]
  have hsq : ((Nat.sqrt (n - 1) : ℕ) : ℚ) ^ 2 ≤ ((n : ℚ) - 1) := by
    have h3 : ((Nat.sqrt (n - 1) * Nat.sqrt (n - 1) : ℕ) : ℚ) ≤ ((n - 1 : ℕ) : ℚ) := by
      exact_mod_cast hs
    have h4 : ((n - 1 : ℕ) : ℚ) = (n : ℚ) - 1 := by
      have : 1 ≤ n := by omega
      push_cast [Nat.cast_sub this]
      ring
    rw [h4] at h3
    calc ((Nat.sqrt (n - 1) : ℕ) : ℚ) ^ 2 = ((Nat.sqrt (n - 1) * Nat.sqrt (n - 1) : ℕ) : ℚ) := by
          push_cast
          ring
    _ ≤ (n : ℚ) - 1 := h3
  linarith

theorem two_le_numPieces (q : ℚ) (hq : 1 < q) : 2 ≤ numPieces q := by
  have hc0 : 0 < ⌈q⌉ := Int.ceil_pos.mpr (by linarith)
  have hn2 : 2 ≤ ⌈q⌉.toNat := by
    have : (1 : ℤ) < ⌈q⌉ := by
      by_contra hcon
      push_neg at hcon
      have h1 := Int.le_ceil q
      have : (⌈q⌉ : ℚ) ≤ 1 := by exact_mod_cast hcon
      linarith
    omega
  have : 1 ≤ Nat.sqrt (⌈q⌉.toNat - 1) := by
    have h1 : 1 ≤ ⌈q⌉.toNat - 1 := by omega
    calc 1 = Nat.sqrt 1 := Nat.sqrt_one.symm
    _ ≤ Nat.sqrt (⌈q⌉.toNat - 1) := Nat.sqrt_le_sqrt h1
  rw [numPieces]
  omega

theorem lerp_step_dist2 (a b : Waypoint) (k i : ℕ) (hk : (k : ℚ) ≠ 0) :
    dist2 (lerpWp a b i k).pos (lerpWp a b (i + 1) k).pos = dist2 a.pos b.pos / (k : ℚ) ^ 2 := by
  simp only [lerpWp, dist2]
  push_cast
  field_simp
  ring

theorem lerp_first_dist2 (a b : Waypoint) (k : ℕ) (hk : (k : ℚ) ≠ 0) :
    dist2 a.pos (lerpWp a b 1 k).pos = dist2 a.pos b.pos / (k : ℚ) ^ 2 := by
  simp only [lerpWp, dist2]
  push_cast
  field_simp
  ring

theorem lerp_last (a b : Waypoint) (k : ℕ) (hk : (k : ℚ) ≠ 0) :
    lerpWp a b k k = b := by
  obtain ⟨⟨bx, by'⟩, bs, bd, bsp⟩ := b
  simp only [lerpWp, Waypoint.mk.injEq, Point.mk.injEq, and_true]
  refine ⟨⟨?_, ?_⟩, ?_⟩ <;> field_simp

theorem subdiv_getLast? (a b : Waypoint) (k : ℕ) (hk0 : k ≠ 0) (hk : (k : ℚ) ≠ 0) :
    (subdiv a b k).getLast? = some b := by
  obtain ⟨m, rfl⟩ := Nat.exists_eq_succ_of_ne_zero hk0
  rw [subdiv, List.range_succ, List.map_append]
  simp only [List.map_cons, List.map_nil]
  rw [List.getLast?_concat]
  exact congrArg some (lerp_last a b (m + 1) hk)

theorem subdiv_chain (minS maxS : ℚ) (a b : Waypoint) (k : ℕ) (hk0 : k ≠ 0)
    (hlo : minS ^ 2 ≤ dist2 a.pos b.pos / (k : ℚ) ^ 2)
    (hhi : dist2 a.pos b.pos / (k : ℚ) ^ 2 ≤ maxS ^ 2) :
    List.Chain' (sepOk minS maxS) (a :: subdiv a b k) := by
  have hk : (k : ℚ) ≠ 0 := Nat.cast_ne_zero.mpr hk0
  rw [List.chain'_cons']
  constructor
  · intro y hy
    obtain ⟨m, rfl⟩ := Nat.exists_eq_succ_of_ne_zero hk0
    rw [subdiv, List.range_succ_eq_map, List.map_cons, List.head?_cons,
      Option.mem_def, Option.some_inj] at hy
    rw [← hy, sepOk, lerp_first_dist2 a b (m + 1) hk]
    exact ⟨hlo, hhi⟩
  · rw [subdiv, List.chain'_map]
    obtain ⟨m, rfl⟩ := Nat.exists_eq_succ_of_ne_zero hk0
    rw [List.chain'_range_succ]
    intro i him
    rw [sepOk, lerp_step_dist2 a b (m + 1) (i + 1) hk]
    exact ⟨hlo, hhi⟩

theorem spaceOut_chain (minS maxS : ℚ) (hmin : 0 ≤ minS) (hsep : 2 * minS ≤ maxS)
    (hmax : 0 < maxS) (l : List Waypoint) :
    ∀ last : Waypoint, List.Chain' (sepOk minS maxS) (last :: spaceOut minS maxS last l) := by
  induction l with
  | nil => intro last; simp [spaceOut]
  | cons p ps ih =>
    intro last
    rw [spaceOut]
    split_ifs with h1 h2
    · exact ih last
    · rw [List.chain'_cons]
      exact ⟨⟨le_of_not_lt h1, h2⟩, ih p⟩
    · have hM2 : (0 : ℚ) < maxS ^ 2 := by positivity
      have hg : maxS ^ 2 < dist2 last.pos p.pos := not_le.mp h2
      have hq1 : 1 < dist2 last.pos p.pos / maxS ^ 2 := by
        rw [lt_div_iff₀ hM2]
        linarith
      set q := dist2 last.pos p.pos / maxS ^ 2 with hqdef
      set k := numPieces q with hkdef
      have hk2 : 2 ≤ k := two_le_numPieces q hq1
      have hk0 : k ≠ 0 := by omega
      have hkq : ((k : ℕ) : ℚ) ≠ 0 := Nat.cast_ne_zero.mpr hk0
      have hkpos : (0 : ℚ) < (k : ℚ) ^ 2 := by positivity
      have hg2 : dist2 last.pos p.pos = q * maxS ^ 2 := by
        rw [hqdef]
        field_simp
      have hub : dist2 last.pos p.pos / (k : ℚ) ^ 2 ≤ maxS ^ 2 := by
        rw [div_le_iff₀ hkpos, hg2]
        have := le_sq_numPieces q (by linarith)
        nlinarith
      have hlb : minS ^ 2 ≤ dist2 last.pos p.pos / (k : ℚ) ^ 2 := by
        rw [le_div_iff₀ hkpos, hg2]
        have hpred := sq_pred_lt_numPieces q hq1
        have hK2 : (2 : ℚ) ≤ (k : ℚ) := by exact_mod_cast hk2
        have hhalf : (k : ℚ) / 2 ≤ (k : ℚ) - 1 := by linarith
        have hhalf2 : ((k : ℚ) / 2) ^ 2 ≤ ((k : ℚ) - 1) ^ 2 :=
          pow_le_pow_left₀ (by linarith) hhalf 2
        have hmin2 : 4 * minS ^ 2 ≤ maxS ^ 2 := by nlinarith
        nlinarith
      rw [← List.cons_append, List.chain'_append]
      refine ⟨subdiv_chain minS maxS last p k hk0 hlb hub,
        (List.chain'_cons'.mp (ih p)).2, ?_⟩
      intro x hx y hy
      have hxp : x = p := by
        rw [show last :: subdiv last p k = [last] ++ subdiv last p k from rfl,
          List.getLast?_append, subdiv_getLast? last p k hk0 hkq] at hx
        exact (by simpa using hx : p = x).symm
      rw [hxp]
      exact (List.chain'_cons'.mp (ih p)).1 y hy

theorem chain'_drop {α : Type} {R : α → α → Prop} {l : List α}
    (h : List.Chain' R l) (n : ℕ) : List.Chain' R (l.drop n) := by
  induction n with
  | zero => simpa using h
  | succ n ih =>
    rw [← List.tail_drop]
    exact ih.tail

theorem concatFull_chain (curr next : List Waypoint) (maxS minS : ℚ) (hmin : 0 ≤ minS)
    (hsep : 2 * minS ≤ maxS) (hmax : 0 < maxS)
    (hcurr : List.Chain' (sepOk minS maxS) curr) :
    List.Chain' (sepOk minS maxS) (concatFull curr next maxS minS) := by
  unfold concatFull
  cases hlast : curr.getLast? with
  | none =>
    cases next with
    | nil => simp
    | cons p ps => exact spaceOut_chain minS maxS hmin hsep hmax ps p
  | some last =>
    rw [List.chain'_append]
    refine ⟨hcurr,
      (List.chain'_cons'.mp (spaceOut_chain minS maxS hmin hsep hmax _ last)).2, ?_⟩
    intro x hx y hy
    rw [hlast, Option.mem_def, Option.some_inj] at hx
    subst hx
    exact (List.chain'_cons'.mp (spaceOut_chain minS maxS hmin hsep hmax _ last)).1 y hy

set_option maxHeartbeats 1000000 in
/-- C3: under the configured spacing sanity conditions and the spacing
invariant on the already-executed path, every pair of consecutive waypoints
of the concatenation result is spaced between the minimum and maximum
separation (in squared form), the result has at most `traj_max_size`
waypoints with the oldest dropped first (it is a suffix of the untruncated
concatenation), and the gap between the last retained waypoint of the prior
output and the first newly appended waypoint never exceeds the maximum
separation. -/
theorem concatPath_spec (curr next : List Waypoint) (traj_max_size traj_min_size : ℕ)
    (maxS minS : ℚ) (hmin : 0 ≤ minS) (hsep : 2 * minS ≤ maxS) (hmax : 0 < maxS)
    (hcurr : List.Chain' (sepOk minS maxS) curr) :
    List.Chain' (sepOk minS maxS) (concatPath curr next traj_max_size traj_min_size maxS minS) ∧
    (concatPath curr next traj_max_size traj_min_size maxS minS).length ≤ traj_max_size ∧
    concatPath curr next traj_max_size traj_min_size maxS minS <:+
      concatFull curr next maxS minS ∧
    (∀ last, curr.getLast? = some last →
      ∀ w, (spaceOut minS maxS last (next.filter fun wp => decide (last.s < wp.s))).head? = some w →
        dist2 last.pos w.pos ≤ maxS ^ 2) := by
  refine ⟨?_, ?_, ?_, ?_⟩
  · exact chain'_drop (concatFull_chain curr next maxS minS hmin hsep hmax hcurr) _
  · rw [concatPath, List.length_drop]
    omega
  · exact List.drop_suffix _ _
  · intro last hlast w hw
    have hchain := spaceOut_chain minS maxS hmin hsep hmax
      (next.filter fun wp => decide (last.s < wp.s)) last
    have := (List.chain'_cons'.mp hchain).1 w (by rw [hw]; rfl)
    exact this.2

/-- Concrete instantiation of `concatPath_spec`: two retained waypoints and
a new trajectory appended with min separation 1 and max separation 2. -/
theorem concatPath_spec_witness :
    List.Chain' (sepOk 1 2)
      (concatPath [⟨⟨0, 0⟩, 0, ⟨1, 0⟩, 1⟩, ⟨⟨2, 0⟩, 2, ⟨1, 0⟩, 1⟩]
        [⟨⟨3, 0⟩, 3, ⟨1, 0⟩, 1⟩, ⟨⟨8, 0⟩, 8, ⟨1, 0⟩, 1⟩] 10 2 2 1) ∧
    (concatPath [⟨⟨0, 0⟩, 0, ⟨1, 0⟩, 1⟩, ⟨⟨2, 0⟩, 2, ⟨1, 0⟩, 1⟩]
        [⟨⟨3, 0⟩, 3, ⟨1, 0⟩, 1⟩, ⟨⟨8, 0⟩, 8, ⟨1, 0⟩, 1⟩] 10 2 2 1).length ≤ 10 ∧
    concatPath [⟨⟨0, 0⟩, 0, ⟨1, 0⟩, 1⟩, ⟨⟨2, 0⟩, 2, ⟨1, 0⟩, 1⟩]
        [⟨⟨3, 0⟩, 3, ⟨1, 0⟩, 1⟩, ⟨⟨8, 0⟩, 8, ⟨1, 0⟩, 1⟩] 10 2 2 1 <:+
      concatFull [⟨⟨0, 0⟩, 0, ⟨1, 0⟩, 1⟩, ⟨⟨2, 0⟩, 2, ⟨1, 0⟩, 1⟩]
        [⟨⟨3, 0⟩, 3, ⟨1, 0⟩, 1⟩, ⟨⟨8, 0⟩, 8, ⟨1, 0⟩, 1⟩] 2 1 ∧
    (∀ last, ([⟨⟨0, 0⟩, 0, ⟨1, 0⟩, 1⟩, ⟨⟨2, 0⟩, 2, ⟨1, 0⟩, 1⟩] : List Waypoint).getLast? = some last →
      ∀ w, (spaceOut 1 2 last
          (([⟨⟨3, 0⟩, 3, ⟨1, 0⟩, 1⟩, ⟨⟨8, 0⟩, 8, ⟨1, 0⟩, 1⟩] : List Waypoint).filter
            fun wp => decide (last.s < wp.s))).head? = some w →
        dist2 last.pos w.pos ≤ 2 ^ 2) :=
  concatPath_spec [⟨⟨0, 0⟩, 0, ⟨1, 0⟩, 1⟩, ⟨⟨2, 0⟩, 2, ⟨1, 0⟩, 1⟩]
    [⟨⟨3, 0⟩, 3, ⟨1, 0⟩, 1⟩, ⟨⟨8, 0⟩, 8, ⟨1, 0⟩, 1⟩] 10 2 2 1 (by norm_num) (by norm_num)
    (by norm_num) (by simp [List.chain'_cons, sepOk, dist2])

/-- C9: the lateral sign convention is fixed across the planner: offsets left
of the centerline are positive, right of it negative; the left boundary
(`roi_boundaries_[0]`) bounds the positive sampled offsets and the right
boundary (`roi_boundaries_[1]`) bounds the negative ones; and the signed
offset the frame converter produces is positive exactly for positions left
of the reference direction and negative exactly for positions right of it. -/
theorem lateral_sign_convention (lane_id : Int) (w cw lw rw m : ℚ) (n : ℕ) (hn : 0 < n)
    (seg : RefSegment) (p : Point) (hwf : seg.wf) :
    (∀ d ∈ lateralOffsets ((getSamplingWidthFromTargetLane lane_id w cw lw rw m)[0]!)
        ((getSamplingWidthFromTargetLane lane_id w cw lw rw m)[1]!) n,
      -(getSamplingWidthFromTargetLane lane_id w cw lw rw m)[1]! ≤ d ∧
        d ≤ (getSamplingWidthFromTargetLane lane_id w cw lw rw m)[0]!) ∧
    (0 < projCross seg p ↔ 0 < cross (sub seg.b seg.a) (sub p seg.a)) ∧
    (projCross seg p < 0 ↔ cross (sub seg.b seg.a) (sub p seg.a) < 0) := by
  obtain ⟨hlen, -⟩ := hwf
  refine ⟨?_, ?_, ?_⟩
  · intro d hd
    set L := (getSamplingWidthFromTargetLane lane_id w cw lw rw m)[0]! with hL
    set R := (getSamplingWidthFromTargetLane lane_id w cw lw rw m)[1]! with hR
    have hL0 : 0 ≤ L := by
      rw [hL]
      simp only [getSamplingWidthFromTargetLane]
      rw [List.getElem!_cons_zero]
      exact le_max_right _ _
    have hR0 : 0 ≤ R := by
      rw [hR]
      simp only [getSamplingWidthFromTargetLane]
      rw [List.getElem!_cons_succ, List.getElem!_cons_zero]
      exact le_max_right _ _
    simp only [lateralOffsets] at hd
    obtain ⟨i, hi, rfl⟩ := List.mem_map.mp hd
    rw [List.mem_range] at hi
    have hiq : (i : ℚ) ≤ (n : ℚ) := by
      exact_mod_cast Nat.lt_succ_iff.mp hi
    have hnq : (0 : ℚ) < (n : ℚ) := by exact_mod_cast hn
    have hstep0 : 0 ≤ (L + R) * i / n :=
      div_nonneg (mul_nonneg (by linarith) (Nat.cast_nonneg i)) (le_of_lt hnq)
    constructor
    · linarith
    · have hstep1 : (L + R) * i / n ≤ L + R := by
        rw [div_le_iff₀ hnq]
        exact mul_le_mul_of_nonneg_left hiq (by linarith)
      linarith
  · constructor
    · intro h
      rcases div_pos_iff.mp h with ⟨h1, _⟩ | ⟨_, h2⟩
      · exact h1
      · exact absurd hlen (not_lt.mpr (le_of_lt h2))
    · intro h
      exact div_pos h hlen
  · constructor
    · intro h
      rcases div_neg_iff.mp h with ⟨_, h2⟩ | ⟨h1, _⟩
      · exact absurd hlen (not_lt.mpr (le_of_lt h2))
      · exact h1
    · intro h
      exact div_neg_of_neg_of_pos h hlen

/-- Concrete instantiation of `lateral_sign_convention`. -/
theorem lateral_sign_convention_witness :
    (∀ d ∈ lateralOffsets ((getSamplingWidthFromTargetLane 0 1 3 3 3 (1 / 2))[0]!)
        ((getSamplingWidthFromTargetLane 0 1 3 3 3 (1 / 2))[1]!) 2,
      -(getSamplingWidthFromTargetLane 0 1 3 3 3 (1 / 2))[1]! ≤ d ∧
        d ≤ (getSamplingWidthFromTargetLane 0 1 3 3 3 (1 / 2))[0]!) ∧
    (0 < projCross ⟨⟨0, 0⟩, ⟨3, 4⟩, 0, 5⟩ ⟨0, 1⟩ ↔
      0 < cross (sub (⟨3, 4⟩ : Point) ⟨0, 0⟩) (sub (⟨0, 1⟩ : Point) ⟨0, 0⟩)) ∧
    (projCross ⟨⟨0, 0⟩, ⟨3, 4⟩, 0, 5⟩ ⟨0, 1⟩ < 0 ↔
      cross (sub (⟨3, 4⟩ : Point) ⟨0, 0⟩) (sub (⟨0, 1⟩ : Point) ⟨0, 0⟩) < 0) :=
  lateral_sign_convention 0 1 3 3 3 (1 / 2) 2 (by norm_num) ⟨⟨0, 0⟩, ⟨3, 4⟩, 0, 5⟩ ⟨0, 1⟩
    (by constructor <;> norm_num [dist2])

/-- C10: the concat step mutates only the retained output trajectory
(`curr_trajectory_`); the lane identifiers, lane data, reference spline,
vehicle states, sampling state, regenerate flag and boundaries are unchanged,
and `curr_trajectory_` becomes exactly the concatenation result. -/
theorem concatStep_frame (st : OrchestratorState) (next_traj : List Waypoint)
    (traj_max_size traj_min_size : ℕ) (wp_max wp_min : ℚ) :
    (concatStep st next_traj traj_max_size traj_min_size wp_max wp_min).curr_trajectory_ =
      concatPath st.curr_trajectory_ next_traj traj_max_size traj_min_size wp_max wp_min ∧
    (concatStep st next_traj traj_max_size traj_min_size wp_max wp_min).regenerate_flag_ =
      st.regenerate_flag_ ∧
    (concatStep st next_traj traj_max_size traj_min_size wp_max wp_min).current_lane_id_ =
      st.current_lane_id_ ∧
    (concatStep st next_traj traj_max_size traj_min_size wp_max wp_min).target_lane_id_ =
      st.target_lane_id_ ∧
    (concatStep st next_traj traj_max_size traj_min_size wp_max wp_min).map_height_ =
      st.map_height_ ∧
    (concatStep st next_traj traj_max_size traj_min_size wp_max wp_min).acceleration_ =
      st.acceleration_ ∧
    (concatStep st next_traj traj_max_size traj_min_size wp_max wp_min).steering_angle_ =
      st.steering_angle_ ∧
    (concatStep st next_traj traj_max_size traj_min_size wp_max wp_min).current_state_ =
      st.current_state_ ∧
    (concatStep st next_traj traj_max_size traj_min_size wp_max wp_min).frontaxle_state_ =
      st.frontaxle_state_ ∧
    (concatStep st next_traj traj_max_size traj_min_size wp_max wp_min).start_state_ =
      st.start_state_ ∧
    (concatStep st next_traj traj_max_size traj_min_size wp_max wp_min).lane_ = st.lane_ ∧
    (concatStep st next_traj traj_max_size traj_min_size wp_max wp_min).local_lane_ =
      st.local_lane_ ∧
    (concatStep st next_traj traj_max_size traj_min_size wp_max wp_min).ref_spline_ =
      st.ref_spline_ ∧
    (concatStep st next_traj traj_max_size traj_min_size wp_max wp_min).roi_boundaries_ =
      st.roi_boundaries_ :=
  ⟨rfl, rfl, rfl, rfl, rfl, rfl, rfl, rfl, rfl, rfl, rfl, rfl, rfl, rfl⟩

theorem planCycle_halted_false (st : OrchestratorState) (cfg : Config) (inp : CycleInput) :
    (planCycle st cfg inp).halted = false := by
  unfold planCycle
  repeat first | rfl | split | dsimp only

theorem planCycle_cases (st : OrchestratorState) (cfg : Config) (inp : CycleInput) :
    (planCycle st cfg inp).outcome = PlanOutcome.ok ∨
    ((planCycle st cfg inp).cmd = stopCmd ∧
     (planCycle st cfg inp).used_controller = false ∧
     (planCycle st cfg inp).state = { st with regenerate_flag_ := true }) := by
  unfold planCycle
  repeat first | (left; rfl) | (right; exact ⟨rfl, rfl, rfl⟩) | split | dsimp only

theorem planCycle_state_frame (st : OrchestratorState) (b : Bool) (cfg : Config)
    (inp : CycleInput) :
    (planCycle { st with regenerate_flag_ := b } cfg inp).outcome =
      (planCycle st cfg inp).outcome ∧
    (planCycle { st with regenerate_flag_ := b } cfg inp).cmd =
      (planCycle st cfg inp).cmd := by
  unfold planCycle
  dsimp only
  repeat first | (exact ⟨rfl, rfl⟩) | split | dsimp only

/-- C1: in every planning cycle that fails entirely (reference path cannot be
built, the vehicle cannot be projected, or no sampled candidate is feasible)
the published command is the stop command, the tracking controller is
bypassed, the process does not halt, and the next cycle plans again exactly
as it would have before the failure (the failure leaves no trace that blocks
or changes subsequent planning), without halting. -/
theorem planCycle_failsafe (st : OrchestratorState) (cfg : Config) (inp : CycleInput)
    (hfail : (planCycle st cfg inp).outcome ≠ PlanOutcome.ok) :
    (planCycle st cfg inp).cmd = stopCmd ∧
    (planCycle st cfg inp).used_controller = false ∧
    (planCycle st cfg inp).halted = false ∧
    ∀ inp2 : CycleInput,
      (planCycle (planCycle st cfg inp).state cfg inp2).halted = false ∧
      (planCycle (planCycle st cfg inp).state cfg inp2).outcome =
        (planCycle st cfg inp2).outcome ∧
      (planCycle (planCycle st cfg inp).state cfg inp2).cmd =
        (planCycle st cfg inp2).cmd := by
  rcases planCycle_cases st cfg inp with hok | ⟨hcmd, hused, hstate⟩
  · exact absurd hok hfail
  · refine ⟨hcmd, hused, planCycle_halted_false st cfg inp, ?_⟩
    intro inp2
    rw [hstate]
    exact ⟨planCycle_halted_false _ cfg inp2,
      (planCycle_state_frame st true cfg inp2).1,
      (planCycle_state_frame st true cfg inp2).2⟩


/-- Concrete instantiation of `planCycle_failsafe`: an empty lane message
makes the cycle fail, publish the stop command, bypass the controller and
keep planning. -/
theorem planCycle_failsafe_witness :
    (planCycle demoState demoConfig ⟨[], []⟩).cmd = stopCmd ∧
    (planCycle demoState demoConfig ⟨[], []⟩).used_controller = false ∧
    (planCycle demoState demoConfig ⟨[], []⟩).halted = false ∧
    ∀ inp2 : CycleInput,
      (planCycle (planCycle demoState demoConfig ⟨[], []⟩).state demoConfig inp2).halted = false ∧
      (planCycle (planCycle demoState demoConfig ⟨[], []⟩).state demoConfig inp2).outcome =
        (planCycle demoState demoConfig inp2).outcome ∧
      (planCycle (planCycle demoState demoConfig ⟨[], []⟩).state demoConfig inp2).cmd =
        (planCycle demoState demoConfig inp2).cmd :=
  planCycle_failsafe demoState demoConfig ⟨[], []⟩
    (by simp [planCycle, buildRefPath, demoState, demoConfig])


end fop
